import Mathlib

/-!
Verification development for the webtoon-processing repository
(`src/webtoon_processing/webtoon_processing.py`).

The program merges a list of image rasters vertically, detects bands of
uniform (white or dark) rows, plans a cut schedule from those bands and
three size hints, and splits the merged raster at the scheduled rows.

The shallow embedding below models:
  - a raster as a list of rows, each row a list of RGB pixels
    (machine `uint8` values are represented as `Nat`; all arithmetic the
    program performs on them stays well below any overflow boundary);
  - NumPy helpers (`np.diff`, `np.nonzero`, `np.split` on sorted indices)
    as pure list functions;
  - PIL `convert("L")` grayscale via the ITU-R 601-2 integer formula used
    by PIL (`(19595 R + 38470 G + 7471 B) >> 16`);
  - Python exceptions as `Except String`;
  - Python floor division `//` as `Int.fdiv`.
-/

namespace WebtoonProcessing

abbrev Pixel := Nat × Nat × Nat

abbrev Raster := List (List Pixel)

/-- PIL image width: the length of a row (rasters are rectangular). -/
def width (image : Raster) : Nat := (image.headD []).length

/-- PIL `convert("L")` per-pixel luminance:
`L = (19595 * R + 38470 * G + 7471 * B) >> 16` (ITU-R 601-2, as implemented
by PIL in `convert.c`; the three weights sum to 65536). -/
def grayscale_pixel (p : Pixel) : Nat :=
  (19595 * p.1 + 38470 * p.2.1 + 7471 * p.2.2) / 65536

/-- `np.nonzero(bools)[0]`: the indices at which the entry is `true`,
in increasing order. -/
def nonzeroIdx : List Bool → List Nat
  | [] => []
  | b :: bs =>
    if b then 0 :: (nonzeroIdx bs).map (· + 1) else (nonzeroIdx bs).map (· + 1)

/-- `np.diff(data)`: adjacent differences `data[i+1] - data[i]`. -/
def np_diff (l : List Int) : List Int :=
  List.zipWith (fun a b => b - a) l l.tail

/-- The Python slice `l[prev:i]` followed by the remaining segments of
`np.split`; `np_split_go l prev is` yields `l[prev:i1], l[i1:i2], ...,
l[ik:]`. -/
def np_split_go (l : List Int) : Nat → List Nat → List (List Int)
  | prev, [] => [l.drop prev]
  | prev, i :: is => (l.drop prev).take (i - prev) :: np_split_go l i is

/-- `np.split(data, idxs)`: the segments
`data[:i1], data[i1:i2], ..., data[ik:]` (Python slice semantics). -/
def np_split (l : List Int) (is : List Nat) : List (List Int) :=
  np_split_go l 0 is

/-- The split positions `np.nonzero(np.diff(data) > 1)[0] + 1`. -/
def splitIdxs (data : List Int) : List Nat :=
  (nonzeroIdx ((np_diff data).map (fun d => decide (d > 1)))).map (· + 1)

/-- `group_consecutive` (webtoon_processing.py, lines 126-150):
`np.split(data, np.nonzero(np.diff(data) > 1)[0] + 1)`.
The input is one-dimensional by type, so the `ndim` check never fires. -/
def group_consecutive (data : List Int) : List (List Int) :=
  np_split data (splitIdxs data)

/-- `find_whitespace` (lines 185-222): convert to grayscale, classify each
row (all pixels `>= threshold` in whitespace mode `threshold > 127`, all
pixels `<= threshold` in darkspace mode), take the indices of the uniform
rows and group consecutive indices. -/
def find_whitespace (image : Raster) (threshold : Int) : List (List Int) :=
  let grayscale := image.map (fun row => row.map grayscale_pixel)
  if threshold > 127 then
    group_consecutive
      ((nonzeroIdx
        (grayscale.map (fun row => row.all (fun v => decide (threshold ≤ (v : Int)))))).map
        (fun n => (n : Int)))
  else
    group_consecutive
      ((nonzeroIdx
        (grayscale.map (fun row => row.all (fun v => decide ((v : Int) ≤ threshold))))).map
        (fun n => (n : Int)))

/-- The candidate middles (lines 275-277): for every span whose extent
`space[-1] - space[0]` exceeds `min_space_height = 40`, the midpoint
`(space[0] + space[-1]) // 2` (Python floor division). -/
def middles (whitespace : List (List Int)) : List Int :=
  (whitespace.filter
      (fun space => decide (space.getLast?.getD 0 - space.head?.getD 0 > 40))).map
    (fun space => Int.fdiv (space.head?.getD 0 + space.getLast?.getD 0) 2)

/-- The greedy selection loop (lines 282-285): start from `[0, a]` when
`a > 0` and `[0]` otherwise; append a candidate `y` iff
`y - cut_here[-1] >= b`. -/
def greedy_cuts (a b : Int) (mids : List Int) : List Int :=
  mids.foldl
    (fun cut_here y =>
      if b ≤ y - cut_here.getLast?.getD 0 then cut_here ++ [y] else cut_here)
    (if 0 < a then [0, a] else [0])

/-- The tail handling (lines 288-293): if `cut_here[-1] < h`, append `h`
when `cut_here[-1] == 0` or `h - cut_here[-1] >= c`, otherwise overwrite
the last entry with `h`. -/
def add_tail (h c : Int) (cut_here : List Int) : List Int :=
  if cut_here.getLast?.getD 0 < h then
    if cut_here.getLast?.getD 0 = 0 ∨ c ≤ h - cut_here.getLast?.getD 0 then
      cut_here ++ [h]
    else
      cut_here.dropLast ++ [h]
  else cut_here

def errHints : String := "Size hints must be a list of three positive integers."

def errIndex : String := "IndexError: list index out of range"

/-- `find_optimal_cuts` (lines 225-297).  Raises when `len(hints) != 3`
(line 264).  `len(whitespace[0])` (line 270) raises `IndexError` when the
band list is empty; the comprehension over `whitespace` (lines 276-277)
raises `IndexError` when the first band is nonempty but some band is empty
(it reads `space[0]` and `space[-1]` of every band). -/
def find_optimal_cuts (image : Raster) (whitespace : List (List Int))
    (hints : List Int) : Except String (List Int) :=
  match hints with
  | [a, b, c] =>
    match whitespace with
    | [] => Except.error errIndex
    | first :: rest =>
      if first.length = 0 then
        Except.ok (add_tail (image.length : Int) c (greedy_cuts a b []))
      else if (first :: rest).any (fun s => s.isEmpty) then
        Except.error errIndex
      else
        Except.ok
          (add_tail (image.length : Int) c (greedy_cuts a b (middles (first :: rest))))
  | _ => Except.error errHints

/-- PIL `image.crop((x1, y1, x2, y2))` for in-bounds boxes: rows
`[y1, y2)` and columns `[x1, x2)`.  (PIL pads out-of-bounds regions with
black; the program only ever crops inside the raster.) -/
def crop (image : Raster) (x1 y1 x2 y2 : Int) : Raster :=
  ((image.drop y1.toNat).take (y2 - y1).toNat).map
    (fun row => (row.drop x1.toNat).take (x2 - x1).toNat)

/-- `split` (lines 300-328): for consecutive pairs `(cut_here[i],
cut_here[i+1])`, crop the full-width horizontal band between them. -/
def split (image : Raster) (cut_here : List Int) : List Raster :=
  List.zipWith (fun y1 y2 => crop image 0 y1 (width image : Int) y2)
    cut_here cut_here.tail

/-- `Image.new("RGB", (w, h))`: an all-black raster. -/
def blankRaster (w h : Nat) : Raster :=
  List.replicate h (List.replicate w (0, 0, 0))

/-- `result.paste(src, (0, y))`: rows `y .. y + src.height - 1` get the
rows of `src`, each keeping the tail of the destination row beyond the
source width; all other rows are untouched. -/
def paste (dst : Raster) (src : Raster) (y : Nat) : Raster :=
  dst.take y
    ++ List.zipWith (fun s d => s ++ d.drop s.length) src (dst.drop y)
    ++ dst.drop (y + src.length)

/-- `merge` (lines 153-182): a new black canvas of width `max(widths)` and
height `sum(heights)`, each input pasted at `(0, y)` with `y` the running
sum of the previous heights.  Python `max` on the empty list raises, hence
`Option`. -/
def merge : List Raster → Option Raster
  | [] => none
  | img :: rest =>
    let images := img :: rest
    let w := (images.map width).foldr max 0
    let h := (images.map List.length).sum
    some
      ((images.foldl
          (fun acc image => (paste acc.1 image acc.2, acc.2 + image.length))
          (blankRaster w h, 0)).1)

/-- Modelled from the spec (§4.2 grouping rule): two uniform row indices
belong to the same band iff they differ by exactly 1; any gap starts a new
band.  `specInsert` prepends an index to the band list built from the
indices to its right. -/
def specInsert (x : Int) : List (List Int) → List (List Int)
  | (y :: g) :: gs => if y - x = 1 then (x :: y :: g) :: gs else [x] :: (y :: g) :: gs
  | _ => [[x]]

/-- Modelled from the spec (§4.2): the band list obtained by the grouping
rule, folding `specInsert` from the right (an empty index list yields the
single empty band). -/
def specGroups (l : List Int) : List (List Int) := l.foldr specInsert [[]]

/-- Modelled from the spec (§4.3 step 3): walk the candidate midpoints in
order; accept a candidate `y` iff `y - (last accepted value) ≥ b`. -/
def acceptCandidates (b : Int) : Int → List Int → List Int
  | _, [] => []
  | last, y :: ys =>
    if b ≤ y - last then y :: acceptCandidates b y ys else acceptCandidates b last ys

/-- Modelled from the spec (§4.3 step 2): for every band `[start, end]`
whose span `end - start` exceeds 40 rows, the candidate is the floor
midpoint `(start + end) // 2`. -/
def specCandidates (bands : List (Int × Int)) : List Int :=
  (bands.filter (fun p => decide (p.2 - p.1 > 40))).map
    (fun p => Int.fdiv (p.1 + p.2) 2)

/-- A row padded on the right with black pixels to width `w`. -/
def padRow (w : Nat) (row : List Pixel) : List Pixel :=
  row ++ List.replicate (w - row.length) (0, 0, 0)

/-! ### Lemmas about `np_split` and the grouping helper -/

lemma np_split_shape (is : List Nat) (l : List Int) :
    ∃ s ss, np_split l is = s :: ss := by
  cases is with
  | nil => exact ⟨l, [], rfl⟩
  | cons i is => exact ⟨l.take i, np_split_go l i is, by simp [np_split, np_split_go]⟩

lemma np_split_go_shift (x : Int) : ∀ (is : List Nat) (l : List Int) (prev : Nat),
    np_split_go (x :: l) (prev + 1) (is.map (· + 1)) = np_split_go l prev is := by
  intro is
  induction is with
  | nil => intro l prev; simp [np_split_go]
  | cons i is ih =>
    intro l prev
    simp only [List.map_cons, np_split_go, List.drop_succ_cons, ih,
      Nat.succ_sub_succ]

lemma np_split_go_flatten : ∀ (is : List Nat) (l : List Int) (prev : Nat),
    List.Chain' (· ≤ ·) (prev :: is) →
    (np_split_go l prev is).flatten = l.drop prev := by
  intro is
  induction is with
  | nil => intro l prev _; simp [np_split_go]
  | cons i is ih =>
    intro l prev hch
    have hpi : prev ≤ i := (List.chain'_cons.mp hch).1
    have hch2 : List.Chain' (· ≤ ·) (i :: is) := (List.chain'_cons.mp hch).2
    simp only [np_split_go, List.flatten_cons, ih l i hch2]
    rw [show l.drop i = (l.drop prev).drop (i - prev) by
      rw [List.drop_drop]; congr 1; omega]
    exact List.take_append_drop _ _

lemma np_split_cons_map (x : Int) (xs : List Int) (is : List Nat) (s : List Int)
    (ss : List (List Int)) (h : np_split xs is = s :: ss) :
    np_split (x :: xs) (is.map (· + 1)) = (x :: s) :: ss := by
  cases is with
  | nil =>
    simp [np_split, np_split_go] at h
    simp [np_split, np_split_go, ← h.1, ← h.2]
  | cons i is =>
    simp only [np_split, np_split_go, List.drop_zero, Nat.sub_zero] at h
    obtain ⟨hs, hss⟩ := List.cons.inj h
    simp only [np_split, List.map_cons, np_split_go, List.drop_zero,
      Nat.sub_zero, List.take_succ_cons, np_split_go_shift]
    rw [hss, ← hs]

lemma splitIdxs_cons₂ (x y : Int) (rest : List Int) :
    splitIdxs (x :: y :: rest) =
      if y - x > 1 then 1 :: (splitIdxs (y :: rest)).map (· + 1)
      else (splitIdxs (y :: rest)).map (· + 1) := by
  have hdiff : np_diff (x :: y :: rest) = (y - x) :: np_diff (y :: rest) := by
    simp [np_diff]
  by_cases hgap : y - x > 1
  · simp [splitIdxs, hdiff, nonzeroIdx, hgap, List.map_map]
    rfl
  · simp [splitIdxs, hdiff, nonzeroIdx, hgap, List.map_map]
    rfl

lemma specGroups_head (y : Int) (rest : List Int) :
    ∃ g gs, specGroups (y :: rest) = (y :: g) :: gs := by
  show ∃ g gs, specInsert y (specGroups rest) = _
  cases h : specGroups rest with
  | nil => exact ⟨[], [], by simp [specInsert]⟩
  | cons first gs2 =>
    cases first with
    | nil => exact ⟨[], [], by simp [specInsert]⟩
    | cons z g =>
      by_cases hz : z - y = 1
      · exact ⟨z :: g, gs2, by simp [specInsert, hz]⟩
      · exact ⟨[], (z :: g) :: gs2, by simp [specInsert, hz]⟩

lemma gc_eq_spec : ∀ (data : List Int), List.Chain' (· < ·) data →
    group_consecutive data = specGroups data := by
  intro data
  induction data with
  | nil => intro; rfl
  | cons x xs ih =>
    cases xs with
    | nil => intro; rfl
    | cons y rest =>
      intro hch
      have hxy : x < y := (List.chain'_cons.mp hch).1
      have hch2 : List.Chain' (· < ·) (y :: rest) := (List.chain'_cons.mp hch).2
      have ihe := ih hch2
      obtain ⟨g, gs, hspec⟩ := specGroups_head y rest
      have hrhs : specGroups (x :: y :: rest) = specInsert x ((y :: g) :: gs) := by
        show specInsert x (specGroups (y :: rest)) = _
        rw [hspec]
      by_cases hgap : y - x > 1
      · have hrhs2 : specGroups (x :: y :: rest) = [x] :: (y :: g) :: gs := by
          rw [hrhs]
          have hne : ¬(y - x = 1) := by omega
          simp [specInsert, hne]
        have hshift := np_split_go_shift x (splitIdxs (y :: rest)) (y :: rest) 0
        rw [Nat.zero_add] at hshift
        rw [group_consecutive, splitIdxs_cons₂, if_pos hgap]
        show np_split_go (x :: y :: rest) 0 (1 :: (splitIdxs (y :: rest)).map (· + 1))
          = specGroups (x :: y :: rest)
        rw [np_split_go, hshift]
        rw [show np_split_go (y :: rest) 0 (splitIdxs (y :: rest)) =
          group_consecutive (y :: rest) from rfl, ihe, hspec, hrhs2]
        rfl
      · have h1 : y - x = 1 := by omega
        have hrhs2 : specGroups (x :: y :: rest) = (x :: y :: g) :: gs := by
          rw [hrhs]
          simp [specInsert, h1]
        rw [group_consecutive, splitIdxs_cons₂, if_neg hgap]
        obtain ⟨s, ss, hs⟩ := np_split_shape (splitIdxs (y :: rest)) (y :: rest)
        rw [np_split_cons_map x (y :: rest) _ s ss hs]
        have hss : s :: ss = (y :: g) :: gs := by
          rw [← hs, show np_split (y :: rest) (splitIdxs (y :: rest)) =
            group_consecutive (y :: rest) from rfl, ihe, hspec]
        obtain ⟨hs1, hs2⟩ := List.cons.inj hss
        rw [hs1, hs2, hrhs2]

/-- C2 (claim): for every strictly increasing integer sequence, the grouping
helper groups two indices into the same band iff they are numerically
consecutive — formalised as agreement with the spec-rule grouping
`specGroups` — and on `[0,1,4,5,6,8,10,11]` it yields exactly the bands
`[0,1], [4,5,6], [8], [10,11]`. -/
theorem C2_group_consecutive_rule :
    (∀ data : List Int, List.Chain' (· < ·) data →
      group_consecutive data = specGroups data) ∧
    group_consecutive [0, 1, 4, 5, 6, 8, 10, 11] =
      [[0, 1], [4, 5, 6], [8], [10, 11]] :=
  ⟨gc_eq_spec, by decide⟩

/-- Witness for C2 at the concrete strictly increasing input `[0, 2, 3]`. -/
theorem C2_group_consecutive_rule_witness :
    List.Chain' (· < ·) ([0, 2, 3] : List Int) ∧
    group_consecutive [0, 2, 3] = specGroups [0, 2, 3] :=
  ⟨by norm_num [List.chain'_cons], C2_group_consecutive_rule.1 [0, 2, 3]
    (by norm_num [List.chain'_cons])⟩

/-! ### Lemmas about `nonzeroIdx` and row classification -/

lemma mem_nonzeroIdx : ∀ (l : List Bool) (n : Nat),
    n ∈ nonzeroIdx l ↔ l.getD n false = true := by
  intro l
  induction l with
  | nil => intro n; simp [nonzeroIdx]
  | cons b bs ih =>
    intro n
    cases n with
    | zero =>
      cases b with
      | true => simp [nonzeroIdx]
      | false =>
        simp only [nonzeroIdx, Bool.false_eq_true, if_false, List.getD_cons_zero]
        constructor
        · intro h
          obtain ⟨a, _, ha⟩ := List.mem_map.mp h
          omega
        · intro h
          exact absurd h (by simp)
    | succ m =>
      have hmap : m + 1 ∈ (nonzeroIdx bs).map (· + 1) ↔ m ∈ nonzeroIdx bs := by
        rw [List.mem_map]
        constructor
        · rintro ⟨a, ha, hin⟩
          have : a = m := by omega
          exact this ▸ ha
        · intro h
          exact ⟨m, h, rfl⟩
      cases b with
      | true => simp only [nonzeroIdx, if_true, List.mem_cons, List.getD_cons_succ]
                rw [← ih m, ← hmap]
                simp
      | false => simp only [nonzeroIdx, Bool.false_eq_true, if_false,
                   List.getD_cons_succ]
                 rw [← ih m, ← hmap]

lemma nonzeroIdx_chain (l : List Bool) : List.Chain' (· < ·) (nonzeroIdx l) := by
  induction l with
  | nil => simp [nonzeroIdx]
  | cons b bs ih =>
    have hmapchain : List.Chain' (· < ·) ((nonzeroIdx bs).map (· + 1)) := by
      rw [List.chain'_map]
      exact ih.imp (fun a b h => by omega)
    cases b with
    | false => simpa [nonzeroIdx] using hmapchain
    | true =>
      simp only [nonzeroIdx, if_true]
      rw [List.chain'_cons']
      refine ⟨?_, hmapchain⟩
      intro y hy
      have hmem : y ∈ (nonzeroIdx bs).map (· + 1) := List.mem_of_mem_head? hy
      obtain ⟨m, _, hm⟩ := List.mem_map.mp hmem
      omega

lemma nonzeroIdx_eq_nil (l : List Bool) (h : ∀ b ∈ l, b = false) :
    nonzeroIdx l = [] := by
  induction l with
  | nil => rfl
  | cons b bs ih =>
    have hb : b = false := h b (List.mem_cons_self b bs)
    rw [show nonzeroIdx (b :: bs) = if b then 0 :: (nonzeroIdx bs).map (· + 1)
      else (nonzeroIdx bs).map (· + 1) from rfl, hb]
    simp [ih (fun x hx => h x (List.mem_cons_of_mem b hx))]

lemma gc_flatten (data : List Int) : (group_consecutive data).flatten = data := by
  have hsorted : List.Chain' (· < ·) (splitIdxs data) := by
    rw [splitIdxs, List.chain'_map]
    exact (nonzeroIdx_chain _).imp (fun a b h => by omega)
  have hle : List.Chain' (· ≤ ·) ((0 : Nat) :: splitIdxs data) := by
    rw [List.chain'_cons']
    exact ⟨fun y _ => Nat.zero_le y, hsorted.imp (fun a b h => Nat.le_of_lt h)⟩
  exact np_split_go_flatten (splitIdxs data) data 0 hle

lemma mem_map_intCast (L : List Nat) (i : Nat) :
    ((i : Int) ∈ L.map (fun n => (n : Int))) ↔ i ∈ L := by
  simp

lemma find_whitespace_mem (image : Raster) (T : Int) (i : Nat)
    (hi : i < image.length) :
    ((i : Int) ∈ (find_whitespace image T).flatten ↔
      if 127 < T then ∀ p ∈ image[i], T ≤ (grayscale_pixel p : Int)
      else ∀ p ∈ image[i], (grayscale_pixel p : Int) ≤ T) := by
  by_cases hT : T > 127
  · simp only [find_whitespace, if_pos hT, gc_flatten, mem_map_intCast,
      mem_nonzeroIdx, List.getD_eq_getElem?_getD, List.getElem?_map,
      List.getElem?_eq_getElem hi, Option.map_some, Option.getD_some,
      if_pos hT]
    simp [List.all_eq_true]
    exact ⟨fun h a b c hm => h _ a b c hm rfl,
      fun h x a b c hm hx => hx ▸ h a b c hm⟩
  · simp only [find_whitespace, if_neg hT, gc_flatten, mem_map_intCast,
      mem_nonzeroIdx, List.getD_eq_getElem?_getD, List.getElem?_map,
      List.getElem?_eq_getElem hi, Option.map_some, Option.getD_some]
    simp [List.all_eq_true]
    exact ⟨fun h a b c hm => h _ a b c hm rfl,
      fun h x a b c hm hx => hx ▸ h a b c hm⟩

/-- C3 (amended): `find_whitespace` classifies a row as uniform iff every
pixel in that row has PIL grayscale value (ITU-R 601-2 luminance) ≥ T when
T > 127, resp. ≤ T when T ≤ 127 — the threshold is applied to the
grayscale conversion of the pixel, not to each RGB channel separately.
The claim's concrete instances hold: a row of pixels all valued 250 is
uniform at threshold 245 and non-uniform at threshold 5, and a row of
pixels all valued 3 is uniform at threshold 5. -/
theorem C3_threshold_classification :
    (∀ (image : Raster) (T : Int) (i : Nat) (hi : i < image.length),
      (((i : Int) ∈ (find_whitespace image T).flatten) ↔
        if 127 < T then ∀ p ∈ image[i], T ≤ (grayscale_pixel p : Int)
        else ∀ p ∈ image[i], (grayscale_pixel p : Int) ≤ T)) ∧
    find_whitespace [[(250, 250, 250)]] 245 = [[0]] ∧
    find_whitespace [[(250, 250, 250)]] 5 = [[]] ∧
    find_whitespace [[(3, 3, 3)]] 5 = [[0]] :=
  ⟨find_whitespace_mem, by decide, by decide, by decide⟩

/-- Witness for C3 at the concrete raster `[[(3,3,3)]]` with threshold 5. -/
theorem C3_threshold_classification_witness :
    (0 : Nat) < ([[(3, 3, 3)]] : Raster).length ∧
    (((0 : Int) ∈ (find_whitespace [[(3, 3, 3)]] 5).flatten) ↔
      if (127 : Int) < 5 then
        ∀ p ∈ ([[(3, 3, 3)]] : Raster)[0], (5 : Int) ≤ (grayscale_pixel p : Int)
      else ∀ p ∈ ([[(3, 3, 3)]] : Raster)[0], (grayscale_pixel p : Int) ≤ 5) :=
  ⟨by decide, C3_threshold_classification.1 [[(3, 3, 3)]] 5 0 (by decide)⟩

/-- C3 counterexample: with threshold 200 (whitespace mode, T > 127) the
raster whose single row is the single pixel (255, 255, 0) is classified
uniform — `find_whitespace` returns the band `[0]` — although the pixel's
blue channel value 0 is not ≥ 200; classification is by grayscale value
(here 225), not by every channel as the claim states. -/
theorem C3_threshold_classification_counterexample :
    find_whitespace [[(255, 255, 0)]] 200 = [[0]] ∧
    ¬ ((200 : Int) ≤ ((((255, 255, 0) : Pixel)).2.2 : Int)) := by
  constructor
  · decide
  · decide

/-! ### Lemmas about the cut planner -/

lemma foldl_greedy (b : Int) : ∀ (mids acc : List Int), acc ≠ [] →
    mids.foldl (fun cut_here y =>
      if b ≤ y - cut_here.getLast?.getD 0 then cut_here ++ [y] else cut_here) acc
    = acc ++ acceptCandidates b (acc.getLast?.getD 0) mids := by
  intro mids
  induction mids with
  | nil => intro acc h; simp [acceptCandidates]
  | cons y ys ih =>
    intro acc hacc
    simp only [List.foldl_cons, acceptCandidates]
    by_cases hc : b ≤ y - acc.getLast?.getD 0
    · rw [if_pos hc, if_pos hc, ih (acc ++ [y]) (by simp), List.getLast?_concat]
      simp [List.append_assoc]
    · rw [if_neg hc, if_neg hc, ih acc hacc]

lemma acceptCandidates_chain (b : Int) : ∀ (mids : List Int) (last : Int),
    List.Chain (fun u v => b ≤ v - u) last (acceptCandidates b last mids) := by
  intro mids
  induction mids with
  | nil => intro last; exact List.Chain.nil
  | cons y ys ih =>
    intro last
    simp only [acceptCandidates]
    by_cases hc : b ≤ y - last
    · rw [if_pos hc]
      exact List.Chain.cons hc (ih y)
    · rw [if_neg hc]
      exact ih last

lemma acceptCandidates_subset (b : Int) : ∀ (mids : List Int) (last y : Int),
    y ∈ acceptCandidates b last mids → y ∈ mids := by
  intro mids
  induction mids with
  | nil => intro last y h; simp [acceptCandidates] at h
  | cons z zs ih =>
    intro last y h
    simp only [acceptCandidates] at h
    by_cases hc : b ≤ z - last
    · rw [if_pos hc] at h
      rcases List.mem_cons.mp h with h1 | h2
      · exact h1 ▸ List.mem_cons_self z zs
      · exact List.mem_cons_of_mem z (ih z y h2)
    · rw [if_neg hc] at h
      exact List.mem_cons_of_mem z (ih last y h)

lemma greedy_cuts_structure (a b : Int) (mids : List Int) :
    greedy_cuts a b mids =
      (if 0 < a then [0, a] else [0]) ++
        acceptCandidates b (if 0 < a then a else 0) mids := by
  rw [greedy_cuts, foldl_greedy]
  · congr 1
    by_cases ha : 0 < a <;> simp [ha]
  · by_cases ha : 0 < a <;> simp [ha]

lemma middles_bounds (ws : List (List Int)) (H : Int)
    (hall : ∀ s ∈ ws, s ≠ [])
    (hrange : ∀ s ∈ ws, ∀ x ∈ s, 0 ≤ x ∧ x < H) :
    ∀ y ∈ middles ws, 0 ≤ y ∧ y < H := by
  intro y hy
  rw [middles] at hy
  obtain ⟨s, hs, hsy⟩ := List.mem_map.mp hy
  have hsmem : s ∈ ws := List.mem_of_mem_filter hs
  have hsne := hall s hsmem
  have hh : s.head?.getD 0 ∈ s := by
    rw [List.head?_eq_head hsne]
    exact List.head_mem hsne
  have hl : s.getLast?.getD 0 ∈ s := by
    rw [List.getLast?_eq_getLast s hsne]
    exact List.getLast_mem hsne
  obtain ⟨h1, h2⟩ := hrange s hsmem _ hh
  obtain ⟨h3, h4⟩ := hrange s hsmem _ hl
  rw [← hsy, Int.fdiv_eq_ediv _ (by norm_num)]
  omega

lemma greedy_cuts_props (a b H : Int) (mids : List Int)
    (hb : 1 ≤ b) (ha : a ≤ H) (hH : 0 < H)
    (hmids : ∀ y ∈ mids, 0 ≤ y ∧ y < H) :
    greedy_cuts a b mids ≠ [] ∧ (greedy_cuts a b mids).head? = some 0 ∧
    List.Chain' (· < ·) (greedy_cuts a b mids) ∧
    (greedy_cuts a b mids).getLast?.getD 0 ≤ H := by
  rw [greedy_cuts_structure]
  by_cases hap : 0 < a
  · simp only [if_pos hap]
    have haccl : List.Chain (· < ·) a (acceptCandidates b a mids) :=
      (acceptCandidates_chain b mids a).imp (fun u v h => by omega)
    refine ⟨by simp, by simp, ?_, ?_⟩
    · show List.Chain (· < ·) 0 (a :: acceptCandidates b a mids)
      exact List.Chain.cons hap haccl
    · cases hacc : acceptCandidates b a mids with
      | nil => simp [hacc, ha]
      | cons z zs =>
        rw [List.getLast?_append_of_ne_nil _ (by simp)]
        have hzm : (z :: zs).getLast?.getD 0 ∈ z :: zs := by
          rw [List.getLast?_eq_getLast _ (by simp)]
          exact List.getLast_mem (by simp)
        have hmm : (z :: zs).getLast?.getD 0 ∈ mids :=
          acceptCandidates_subset b mids a _ (hacc ▸ hzm)
        exact le_of_lt (hmids _ hmm).2
  · simp only [if_neg hap]
    have haccl : List.Chain (· < ·) 0 (acceptCandidates b 0 mids) :=
      (acceptCandidates_chain b mids 0).imp (fun u v h => by omega)
    refine ⟨by simp, by simp, haccl, ?_⟩
    cases hacc : acceptCandidates b 0 mids with
    | nil => simp [hacc]; omega
    | cons z zs =>
      rw [List.getLast?_append_of_ne_nil _ (by simp)]
      have hzm : (z :: zs).getLast?.getD 0 ∈ z :: zs := by
        rw [List.getLast?_eq_getLast _ (by simp)]
        exact List.getLast_mem (by simp)
      have hmm : (z :: zs).getLast?.getD 0 ∈ mids :=
        acceptCandidates_subset b mids 0 _ (hacc ▸ hzm)
      exact le_of_lt (hmids _ hmm).2

lemma add_tail_spec (H c : Int) (g : List Int) (hne : g ≠ [])
    (hhead : g.head? = some 0) (hchain : List.Chain' (· < ·) g)
    (hlast : g.getLast?.getD 0 ≤ H) (hH : 0 < H) :
    (add_tail H c g).head? = some 0 ∧ (add_tail H c g).getLast? = some H ∧
    List.Chain' (· < ·) (add_tail H c g) ∧ 2 ≤ (add_tail H c g).length := by
  have hgl : g.getLast? = some (g.getLast hne) := List.getLast?_eq_getLast g hne
  rw [add_tail]
  split_ifs with h1 h2
  · -- append H
    refine ⟨?_, List.getLast?_concat g, ?_, ?_⟩
    · rw [List.head?_append, hhead]
      rfl
    · rw [List.chain'_append]
      refine ⟨hchain, List.chain'_singleton H, ?_⟩
      intro x hx y hy
      simp only [List.head?_cons, Option.mem_some_iff] at hy
      rw [hgl] at hx h1
      simp only [Option.mem_some_iff] at hx
      simp only [Option.getD_some] at h1
      omega
    · have : 0 < g.length := List.length_pos_of_ne_nil hne
      simp only [List.length_append, List.length_cons, List.length_nil]
      omega
  · -- replace the last element with H
    push_neg at h2
    obtain ⟨hlast0, _⟩ := h2
    have hlen2 : 2 ≤ g.length := by
      cases g with
      | nil => exact absurd rfl hne
      | cons x t =>
        cases t with
        | nil =>
          exfalso
          simp only [List.head?_cons, Option.some_inj] at hhead
          simp only [List.getLast?_singleton, Option.getD_some] at hlast0
          exact hlast0 hhead
        | cons u v => simp [List.length_cons]
    have hdne : g.dropLast ≠ [] := by
      have := List.length_dropLast g
      intro hc
      rw [hc] at this
      simp at this
      omega
    have hsplit : g.dropLast ++ [g.getLast hne] = g := List.dropLast_append_getLast hne
    have hchain2 : List.Chain' (· < ·) (g.dropLast ++ [g.getLast hne]) := by
      rw [hsplit]
      exact hchain
    rw [List.chain'_append] at hchain2
    refine ⟨?_, List.getLast?_concat _, ?_, ?_⟩
    · rw [List.head?_append]
      rw [show g.dropLast.head? = g.head? from ?_, hhead]
      · rfl
      · cases g with
        | nil => exact absurd rfl hne
        | cons x t =>
          cases t with
          | nil => simp at hlen2
          | cons u v => simp [List.dropLast_cons₂]
    · rw [List.chain'_append]
      refine ⟨hchain2.1, List.chain'_singleton H, ?_⟩
      intro x hx y hy
      simp only [List.head?_cons, Option.mem_some_iff] at hy
      have hxlt : x < g.getLast hne := by
        have := hchain2.2.2 x hx (g.getLast hne) (by simp)
        exact this
      rw [hgl] at hlast h1
      simp only [Option.getD_some] at hlast h1
      omega
    · have := List.length_dropLast g
      simp only [List.length_append, List.length_cons, List.length_nil]
      omega
  · -- the last element is already at least H, hence equal to H
    have hleq : g.getLast?.getD 0 = H := by omega
    refine ⟨hhead, ?_, hchain, ?_⟩
    · rw [hgl]
      rw [hgl] at hleq
      simp only [Option.getD_some] at hleq
      rw [hleq]
    · cases g with
      | nil => exact absurd rfl hne
      | cons x t =>
        cases t with
        | nil =>
          exfalso
          simp only [List.head?_cons, Option.some_inj] at hhead
          simp only [List.getLast?_singleton, Option.getD_some] at hleq
          omega
        | cons u v => simp [List.length_cons]

lemma ok_cases (image : Raster) (ws : List (List Int)) (a b c : Int)
    (cuts : List Int)
    (hok : find_optimal_cuts image ws [a, b, c] = Except.ok cuts) :
    ∃ first rest, ws = first :: rest ∧
      ((first.length = 0 ∧
          cuts = add_tail (image.length : Int) c (greedy_cuts a b [])) ∨
        (first.length ≠ 0 ∧ (∀ s ∈ ws, s ≠ []) ∧
          cuts = add_tail (image.length : Int) c (greedy_cuts a b (middles ws)))) := by
  cases ws with
  | nil => simp [find_optimal_cuts] at hok
  | cons first rest =>
    refine ⟨first, rest, rfl, ?_⟩
    by_cases h0 : first.length = 0
    · left
      refine ⟨h0, ?_⟩
      simp only [find_optimal_cuts, if_pos h0] at hok
      exact (Except.ok.inj hok).symm
    · by_cases hany : ((first :: rest).any fun s => s.isEmpty) = true
      · simp only [find_optimal_cuts, if_neg h0, if_pos hany] at hok
        exact absurd hok (by simp)
      · right
        have hall : ∀ s ∈ first :: rest, s ≠ [] := by
          intro s hs hsnil
          apply hany
          rw [List.any_eq_true]
          exact ⟨s, hs, by simp [hsnil]⟩
        refine ⟨h0, hall, ?_⟩
        simp only [find_optimal_cuts, if_neg h0, if_neg hany] at hok
        exact (Except.ok.inj hok).symm

/-- C1 (amended): for a raster of positive height H, a band list shaped
like a `find_whitespace` output (each band nonempty and contained in
[0, H); the no-whitespace case is the first band being empty), and hints
with a ≤ H and b ≥ 1, every schedule returned by `find_optimal_cuts`
starts at 0, ends at H, is strictly increasing (hence duplicate-free) and
has length at least 2. -/
theorem C1_schedule_invariant (image : Raster) (ws : List (List Int))
    (a b c : Int) (cuts : List Int)
    (hH : 0 < image.length) (ha : a ≤ (image.length : Int)) (hb : 1 ≤ b)
    (hrange : ∀ s ∈ ws, ∀ x ∈ s, 0 ≤ x ∧ x < (image.length : Int))
    (hok : find_optimal_cuts image ws [a, b, c] = Except.ok cuts) :
    cuts.head? = some 0 ∧ cuts.getLast? = some (image.length : Int) ∧
    List.Pairwise (· < ·) cuts ∧ 2 ≤ cuts.length := by
  obtain ⟨first, rest, hws, hcase⟩ := ok_cases image ws a b c cuts hok
  have hHpos : (0 : Int) < (image.length : Int) := by exact_mod_cast hH
  rcases hcase with ⟨h0, hcuts⟩ | ⟨h0, hne, hcuts⟩
  · obtain ⟨hgne, hghead, hgchain, hglast⟩ :=
      greedy_cuts_props a b (image.length : Int) [] hb ha hHpos (by simp)
    obtain ⟨p1, p2, p3, p4⟩ :=
      add_tail_spec (image.length : Int) c _ hgne hghead hgchain hglast hHpos
    rw [hcuts]
    exact ⟨p1, p2, List.chain'_iff_pairwise.mp p3, p4⟩
  · have hmids := middles_bounds ws (image.length : Int) hne hrange
    obtain ⟨hgne, hghead, hgchain, hglast⟩ :=
      greedy_cuts_props a b (image.length : Int) (middles ws) hb ha hHpos hmids
    obtain ⟨p1, p2, p3, p4⟩ :=
      add_tail_spec (image.length : Int) c _ hgne hghead hgchain hglast hHpos
    rw [hcuts]
    exact ⟨p1, p2, List.chain'_iff_pairwise.mp p3, p4⟩

/-- C1 counterexample: the claim quantifies over all hints.  With raster
height 100 and first-chunk hint a = 5000 > 100 the schedule is [0, 5000],
which does not end at the height 100; with b = 0 and a band whose midpoint
equals the hint a = 50 the schedule is [0, 50, 50, 200], which is not
strictly increasing and has a duplicate. -/
theorem C1_schedule_invariant_counterexample :
    find_optimal_cuts (List.replicate 100 ([] : List Pixel)) [[]]
      [5000, 1000, 800] = Except.ok [0, 5000] ∧
    find_optimal_cuts (List.replicate 200 ([] : List Pixel))
      [(List.range' 30 42).map (fun n => (n : Int))] [50, 0, 100] =
      Except.ok [0, 50, 50, 200] := by
  constructor
  · rfl
  · rfl

/-- Witness for C1 at a concrete raster of height 100 with the single
empty band and hints (0, 1000, 800). -/
theorem C1_schedule_invariant_witness :
    ([0, ((List.replicate 100 ([] : List Pixel)).length : Int)].head? = some 0 ∧
      [0, ((List.replicate 100 ([] : List Pixel)).length : Int)].getLast? =
        some ((List.replicate 100 ([] : List Pixel)).length : Int) ∧
      List.Pairwise (· < ·)
        [0, ((List.replicate 100 ([] : List Pixel)).length : Int)] ∧
      2 ≤ [0, ((List.replicate 100 ([] : List Pixel)).length : Int)].length) :=
  C1_schedule_invariant (List.replicate 100 []) [[]] 0 1000 800
    [0, ((List.replicate 100 ([] : List Pixel)).length : Int)]
    (by decide) (by decide) (by decide) (by decide) rfl

lemma middles_eq_specCandidates (ws : List (List Int)) :
    middles ws =
      specCandidates (ws.map (fun s => (s.head?.getD 0, s.getLast?.getD 0))) := by
  rw [middles, specCandidates, List.filter_map, List.map_map]
  rfl

/-- C4 (amended): provided the band list is nonempty and every band is
nonempty (as in every `find_whitespace` output that found whitespace), the
schedule of `find_optimal_cuts` is obtained by greedily accepting, in
visit order, exactly the floor midpoints (start + end) // 2 of the bands
whose span end − start strictly exceeds 40 rows, accepting a candidate y
iff y minus the last accepted value is at least b (then adding the tail).
When the first band is empty the candidate list is empty regardless of the
remaining bands, and an empty band list is an error, so the claim's
universal quantification over band lists fails. -/
theorem C4_candidates_acceptance (image : Raster) (ws : List (List Int))
    (a b c : Int) (hne : ws ≠ []) (hall : ∀ s ∈ ws, s ≠ []) :
    find_optimal_cuts image ws [a, b, c] =
      Except.ok (add_tail (image.length : Int) c
        ((if 0 < a then [0, a] else [0]) ++
          acceptCandidates b (if 0 < a then a else 0)
            (specCandidates
              (ws.map (fun s => (s.head?.getD 0, s.getLast?.getD 0)))))) := by
  cases ws with
  | nil => exact absurd rfl hne
  | cons first rest =>
    have hfirst : first ≠ [] := hall first (List.mem_cons_self first rest)
    have h0 : ¬ first.length = 0 := by
      intro hh
      exact hfirst (List.length_eq_zero.mp hh)
    have hany : ¬ (((first :: rest).any fun s => s.isEmpty) = true) := by
      intro hh
      rw [List.any_eq_true] at hh
      obtain ⟨s, hs, hsE⟩ := hh
      exact hall s hs (List.isEmpty_iff.mp hsE)
    simp only [find_optimal_cuts, if_neg h0, if_neg hany]
    rw [greedy_cuts_structure, middles_eq_specCandidates]

set_option maxRecDepth 2000 in
/-- C4 counterexample: with the band list `[[], [50..150]]` — first band
empty, second band of span 100 > 40 with midpoint 100 — the candidate
list of `find_optimal_cuts` is empty (the code only inspects the first
band), so for height 200 and hints (0, 60, 30) the schedule is [0, 200]
and does not contain the midpoint 100 that the claim's candidate rule,
which does list 100, would have accepted (100 − 0 ≥ 60). -/
theorem C4_candidates_acceptance_counterexample :
    find_optimal_cuts (List.replicate 200 ([] : List Pixel))
      [[], (List.range' 50 101).map (fun n => (n : Int))] [0, 60, 30] =
      Except.ok [0, 200] ∧
    ((100 : Int) ∉ ([0, 200] : List Int)) ∧
    (100 : Int) ∈ specCandidates
      (([[], (List.range' 50 101).map (fun n => (n : Int))] :
        List (List Int)).map (fun s => (s.head?.getD 0, s.getLast?.getD 0))) := by
  refine ⟨rfl, by decide, by decide⟩

/-- Witness for C4 at the concrete band list `[[0..44]]` (span 44,
midpoint 22), raster height 100 and hints (0, 10, 5). -/
theorem C4_candidates_acceptance_witness :
    find_optimal_cuts (List.replicate 100 ([] : List Pixel))
      [(List.range' 0 45).map (fun n => (n : Int))] [0, 10, 5] =
      Except.ok (add_tail ((List.replicate 100 ([] : List Pixel)).length : Int) 5
        ((if (0 : Int) < 0 then [0, 0] else [0]) ++
          acceptCandidates 10 (if (0 : Int) < 0 then 0 else 0)
            (specCandidates
              (([(List.range' 0 45).map (fun n => (n : Int))] :
                List (List Int)).map
                (fun s => (s.head?.getD 0, s.getLast?.getD 0)))))) :=
  C4_candidates_acceptance (List.replicate 100 [])
    [(List.range' 0 45).map (fun n => (n : Int))] 0 10 5
    (by decide) (by decide)

/-- C5 (amended): with a positive first-chunk hint a, the schedule
contains a as its second element — so the first chunk is rows [0, a) —
unless the greedy pass accepts no candidate and 0 < H − a < c, in which
case the tail handling merges the too-short tail into the first chunk and
the schedule is [0, H]. -/
theorem C5_cover_page (image : Raster) (ws : List (List Int)) (a b c : Int)
    (cuts : List Int) (hapos : 0 < a)
    (hok : find_optimal_cuts image ws [a, b, c] = Except.ok cuts) :
    cuts[1]? = some a ∨
      (cuts = [0, (image.length : Int)] ∧ a < (image.length : Int) ∧
        (image.length : Int) - a < c) := by
  obtain ⟨first, rest, hws, hcase⟩ := ok_cases image ws a b c cuts hok
  have hmain : ∀ mids : List Int,
      cuts = add_tail (image.length : Int) c (greedy_cuts a b mids) →
      (cuts[1]? = some a ∨
        (cuts = [0, (image.length : Int)] ∧ a < (image.length : Int) ∧
          (image.length : Int) - a < c)) := by
    intro mids hcuts
    rw [greedy_cuts_structure, if_pos hapos, if_pos hapos] at hcuts
    cases hacc : acceptCandidates b a mids with
    | nil =>
      rw [hacc, List.append_nil] at hcuts
      rw [add_tail,
        show (([0, a] : List Int).getLast?.getD 0) = a from rfl] at hcuts
      split_ifs at hcuts with h1 h2
      · left
        rw [hcuts]
        rfl
      · right
        push_neg at h2
        rw [hcuts]
        exact ⟨rfl, h1, h2.2⟩
      · left
        rw [hcuts]
        rfl
    | cons z zs =>
      rw [hacc] at hcuts
      rw [add_tail] at hcuts
      split_ifs at hcuts with h1 h2 <;> left <;> rw [hcuts]
      · rfl
      · rw [show ([0, a] ++ z :: zs : List Int) = 0 :: a :: z :: zs from rfl,
          List.dropLast_cons₂, List.dropLast_cons₂]
        simp
      · rfl
  rcases hcase with ⟨_, hcuts⟩ | ⟨_, _, hcuts⟩
  · exact hmain [] hcuts
  · exact hmain (middles ws) hcuts

/-- C5 counterexample: height 100, no whitespace, hints (50, 1000, 800).
The greedy pass accepts nothing, the remaining tail 100 − 50 = 50 is
shorter than c = 800, so the code replaces 50 by 100 and returns the
schedule [0, 100], whose second element is not a = 50. -/
theorem C5_cover_page_counterexample :
    find_optimal_cuts (List.replicate 100 ([] : List Pixel)) [[]]
      [50, 1000, 800] = Except.ok [0, 100] ∧
    ¬ (([0, (100 : Int)] : List Int)[1]? = some 50) := by
  exact ⟨rfl, by decide⟩

/-- Witness for C5 at height 100, no whitespace, hints (30, 1000, 60):
the schedule is [0, 30, 100] and its second element is the hint 30. -/
theorem C5_cover_page_witness :
    ([0, 30, 100] : List Int)[1]? = some 30 ∨
      (([0, 30, 100] : List Int) =
          [0, ((List.replicate 100 ([] : List Pixel)).length : Int)] ∧
        (30 : Int) < ((List.replicate 100 ([] : List Pixel)).length : Int) ∧
        ((List.replicate 100 ([] : List Pixel)).length : Int) - 30 < 60) :=
  C5_cover_page (List.replicate 100 []) [[]] 30 1000 60 [0, 30, 100]
    (by decide) rfl

lemma chain'_dropLast {α : Type} {R : α → α → Prop} :
    ∀ (l : List α), List.Chain' R l → List.Chain' R l.dropLast := by
  intro l
  induction l with
  | nil => intro h; simp
  | cons x t ih =>
    intro h
    cases t with
    | nil => simp
    | cons y s =>
      rw [List.dropLast_cons₂]
      have h1 : R x y := (List.chain'_cons.mp h).1
      have h2 := ih (List.chain'_cons.mp h).2
      cases s with
      | nil => simp
      | cons z s2 =>
        rw [List.dropLast_cons₂] at h2 ⊢
        exact List.chain'_cons.mpr ⟨h1, h2⟩

lemma dropLast_drop_one {α : Type} (l : List α) :
    l.dropLast.drop 1 = (l.drop 1).dropLast := by
  cases l with
  | nil => rfl
  | cons x t =>
    cases t with
    | nil => rfl
    | cons y s => rfl

lemma greedy_cuts_drop_chain (a b : Int) (mids : List Int) :
    List.Chain' (fun u v => b ≤ v - u) ((greedy_cuts a b mids).drop 1) := by
  rw [greedy_cuts_structure]
  by_cases hap : 0 < a
  · simp only [if_pos hap]
    show List.Chain' _ ((0 :: a :: acceptCandidates b a mids).drop 1)
    exact acceptCandidates_chain b mids a
  · simp only [if_neg hap]
    show List.Chain' _ ((0 :: acceptCandidates b 0 mids).drop 1)
    exact (show List.Chain' (fun u v => b ≤ v - u)
      (0 :: acceptCandidates b 0 mids) from acceptCandidates_chain b mids 0).tail

lemma add_tail_inner_chain {P : Int → Int → Prop} (H c : Int) (g : List Int)
    (h : List.Chain' P (g.drop 1)) :
    List.Chain' P (((add_tail H c g).drop 1).dropLast) := by
  rw [add_tail]
  split_ifs with h1 h2
  · cases g with
    | nil => simp
    | cons x t =>
      rw [show ((x :: t ++ [H]).drop 1) = t ++ [H] from rfl,
        List.dropLast_concat]
      exact h
  · cases hg : g.dropLast with
    | nil => simp [hg]
    | cons d ds =>
      have hchain := chain'_dropLast _ h
      rw [← dropLast_drop_one, hg] at hchain
      rw [show ((d :: ds ++ [H]).drop 1) = ds ++ [H] from rfl,
        List.dropLast_concat]
      exact hchain
  · exact chain'_dropLast _ h

lemma get_inner (l : List Int) (j : Nat)
    (hj : j < ((l.drop 1).dropLast).length) :
    ((l.drop 1).dropLast).get ⟨j, hj⟩ = l[1 + j]! := by
  have hlen : ((l.drop 1).dropLast).length = l.length - 2 := by
    simp only [List.length_dropLast, List.length_drop]
    omega
  have hj3 : 1 + j < l.length := by omega
  rw [List.get_eq_getElem, List.getElem_dropLast, List.getElem_drop]
  rw [getElem!_pos l (1 + j) hj3]

/-- C6 (claim): in every schedule returned by `find_optimal_cuts`, every
inner chunk — chunk i spanning rows [cuts[i], cuts[i+1]) with i neither 0
nor the last index — has height at least b.  (In the degenerate
single-chunk or two-chunk schedules there are no inner chunks and the
statement is vacuous, which covers the claim's exception.) -/
theorem C6_inner_chunk_height (image : Raster) (ws : List (List Int))
    (a b c : Int) (cuts : List Int)
    (hok : find_optimal_cuts image ws [a, b, c] = Except.ok cuts) :
    ∀ i : Nat, 1 ≤ i → i + 2 < cuts.length → b ≤ cuts[i + 1]! - cuts[i]! := by
  have hchain : List.Chain' (fun u v => b ≤ v - u) ((cuts.drop 1).dropLast) := by
    obtain ⟨first, rest, hws, hcase⟩ := ok_cases image ws a b c cuts hok
    rcases hcase with ⟨_, hcuts⟩ | ⟨_, _, hcuts⟩ <;>
      rw [hcuts] <;>
      exact add_tail_inner_chain _ _ _ (greedy_cuts_drop_chain a b _)
  intro i hi1 hi2
  rw [List.chain'_iff_get] at hchain
  have hlen : ((cuts.drop 1).dropLast).length = cuts.length - 2 := by
    simp only [List.length_dropLast, List.length_drop]
    omega
  have hj : i - 1 < ((cuts.drop 1).dropLast).length - 1 := by omega
  have h := hchain (i - 1) hj
  rw [get_inner, get_inner] at h
  rw [show 1 + (i - 1) = i from by omega,
    show 1 + (i - 1 + 1) = i + 1 from by omega] at h
  exact h

set_option maxRecDepth 4000 in
/-- Witness for C6: height 300, bands [0..44] and [100..148] (midpoints 22
and 124), hints (0, 20, 30) give the schedule [0, 22, 124, 300]; the only
inner chunk [22, 124) has height 102 ≥ 20. -/
theorem C6_inner_chunk_height_witness :
    (1 : Nat) ≤ 1 ∧ 1 + 2 < ([0, 22, 124, 300] : List Int).length ∧
    (20 : Int) ≤ ([0, 22, 124, 300] : List Int)[1 + 1]! -
      ([0, 22, 124, 300] : List Int)[1]! := by
  refine ⟨le_refl 1, by decide, ?_⟩
  exact C6_inner_chunk_height (List.replicate 300 [])
    [(List.range' 0 45).map (fun n => (n : Int)),
      (List.range' 100 49).map (fun n => (n : Int))] 0 20 30
    [0, 22, 124, 300] rfl 1 (le_refl 1) (by decide)

/-- C10 (amended): for a well-formed band list (nonempty, and — unless the
first band is empty — every band nonempty), `find_optimal_cuts` raises an
error iff the hints sequence does not have length exactly 3; the hint
values themselves are never validated — arbitrary integers, including
zero and negative b and c, are accepted.  On a malformed band list (empty,
or an empty band after a nonempty first band) an IndexError escapes even
with three hints, so the claim's unconditional iff fails. -/
theorem C10_hints_validation (image : Raster) (ws : List (List Int))
    (hints : List Int) (hne : ws ≠ [])
    (hwf : ws.head?.getD [] = [] ∨ ∀ s ∈ ws, s ≠ []) :
    (∃ e, find_optimal_cuts image ws hints = Except.error e) ↔
      hints.length ≠ 3 := by
  constructor
  · rintro ⟨e, he⟩ hlen3
    obtain ⟨a, b, c, habc⟩ := List.length_eq_three.mp hlen3
    subst habc
    cases ws with
    | nil => exact hne rfl
    | cons first rest =>
      by_cases h0 : first.length = 0
      · have hfirst : first = [] := List.length_eq_zero.mp h0
        simp [find_optimal_cuts, hfirst] at he
      · have hfne : first ≠ [] := fun hh => h0 (by rw [hh]; rfl)
        have hall : ∀ s ∈ first :: rest, s ≠ [] := by
          rcases hwf with hl | hr
          · exact absurd (by simpa using hl) hfne
          · exact hr
        have hnomem : ¬ (([] : List Int) ∈ rest) := fun hmem =>
          hall [] (List.mem_cons_of_mem first hmem) rfl
        simp [find_optimal_cuts, hfne, hnomem] at he
  · intro hlen
    rcases hints with _ | ⟨a, _ | ⟨b, _ | ⟨c, _ | ⟨d, t⟩⟩⟩⟩
    · exact ⟨errHints, rfl⟩
    · exact ⟨errHints, rfl⟩
    · exact ⟨errHints, rfl⟩
    · exact absurd rfl hlen
    · exact ⟨errHints, rfl⟩

/-- C10 counterexample: with the empty band list, `find_optimal_cuts`
raises an IndexError (the code reads `whitespace[0]`) even though the
hints sequence has length exactly 3. -/
theorem C10_hints_validation_counterexample :
    find_optimal_cuts [[(0, 0, 0)]] [] [0, 1000, 800] =
      Except.error errIndex ∧
    ([0, 1000, 800] : List Int).length = 3 :=
  ⟨rfl, rfl⟩

/-- Witness for C10 at the band list `[[0]]` and hints `[0, 1000, 800]`. -/
theorem C10_hints_validation_witness :
    ((∃ e, find_optimal_cuts [[(0, 0, 0)]] [[0]] [0, 1000, 800] =
        Except.error e) ↔ ([0, 1000, 800] : List Int).length ≠ 3) :=
  C10_hints_validation [[(0, 0, 0)]] [[0]] [0, 1000, 800] (by decide)
    (Or.inr (by decide))

/-- C7 (claim): when no row of the raster is uniform, `find_whitespace`
returns the single empty band `[[]]` (one band, not zero, and no error);
and `find_optimal_cuts` on that single-empty-band list returns normally
with a schedule drawn only from 0, the hint a, and the height H — i.e. it
treats the input as having no whitespace candidate cut points. -/
theorem C7_no_whitespace_behavior :
    (∀ (image : Raster) (T : Int),
      (∀ row ∈ image, ∃ p ∈ row,
        if 127 < T then (grayscale_pixel p : Int) < T
        else T < (grayscale_pixel p : Int)) →
      find_whitespace image T = [[]]) ∧
    (∀ (image : Raster) (a b c : Int),
      ∃ cuts, find_optimal_cuts image [[]] [a, b, c] = Except.ok cuts ∧
        ∀ y ∈ cuts, y = 0 ∨ y = a ∨ y = (image.length : Int)) := by
  constructor
  · intro image T hrow
    by_cases hT : T > 127
    · simp only [find_whitespace, if_pos hT]
      rw [nonzeroIdx_eq_nil]
      · rfl
      · intro bflag hbf
        rw [List.mem_map] at hbf
        obtain ⟨grow, hgrow, hflag⟩ := hbf
        rw [List.mem_map] at hgrow
        obtain ⟨row, hrowmem, hgray⟩ := hgrow
        obtain ⟨p, hp, hplt⟩ := hrow row hrowmem
        rw [if_pos hT] at hplt
        rw [← hflag, ← hgray]
        rw [List.all_eq_false]
        refine ⟨grayscale_pixel p, List.mem_map_of_mem grayscale_pixel hp, ?_⟩
        simp
        omega
    · simp only [find_whitespace, if_neg hT]
      rw [nonzeroIdx_eq_nil]
      · rfl
      · intro bflag hbf
        rw [List.mem_map] at hbf
        obtain ⟨grow, hgrow, hflag⟩ := hbf
        rw [List.mem_map] at hgrow
        obtain ⟨row, hrowmem, hgray⟩ := hgrow
        obtain ⟨p, hp, hplt⟩ := hrow row hrowmem
        rw [if_neg hT] at hplt
        rw [← hflag, ← hgray]
        rw [List.all_eq_false]
        refine ⟨grayscale_pixel p, List.mem_map_of_mem grayscale_pixel hp, ?_⟩
        simp
        omega
  · intro image a b c
    refine ⟨add_tail (image.length : Int) c (greedy_cuts a b []), rfl, ?_⟩
    have hg : greedy_cuts a b [] = if 0 < a then [0, a] else [0] := rfl
    intro y hy
    by_cases hap : 0 < a
    · rw [hg, if_pos hap, add_tail] at hy
      split_ifs at hy <;> simp at hy <;> tauto
    · rw [hg, if_neg hap, add_tail] at hy
      split_ifs at hy <;> simp at hy <;> tauto

/-- Witness for C7 at the all-gray one-pixel raster (no uniform row at
threshold 245) and hints (0, 1000, 800). -/
theorem C7_no_whitespace_behavior_witness :
    find_whitespace [[(100, 100, 100)]] 245 = [[]] ∧
    (∃ cuts, find_optimal_cuts [[(100, 100, 100)]] [[]] [0, 1000, 800] =
        Except.ok cuts ∧
      ∀ y ∈ cuts, y = 0 ∨ y = 0 ∨
        y = (([[(100, 100, 100)]] : Raster).length : Int)) :=
  ⟨C7_no_whitespace_behavior.1 [[(100, 100, 100)]] 245 (by decide),
    C7_no_whitespace_behavior.2 [[(100, 100, 100)]] 0 1000 800⟩

/-! ### Lemmas about the splitter -/

lemma crop_full (image : Raster) (hw : ∀ row ∈ image, row.length = width image)
    (y1 y2 : Int) :
    crop image 0 y1 (width image : Int) y2 =
      (image.drop y1.toNat).take (y2 - y1).toNat := by
  rw [crop, show ((0 : Int)).toNat = 0 from rfl,
    show (((width image : Int)) - 0).toNat = width image from by omega]
  have hrows : ∀ row ∈ (image.drop y1.toNat).take (y2 - y1).toNat,
      (row.drop 0).take (width image) = id row := by
    intro row hrow
    have hmem : row ∈ image := List.mem_of_mem_drop (List.mem_of_mem_take hrow)
    rw [List.drop_zero, id_eq, List.take_of_length_le (le_of_eq (hw row hmem))]
  rw [List.map_congr_left hrows, List.map_id]

lemma chain'_head_le_getLast : ∀ (l : List Int) (x : Int),
    List.Chain' (· ≤ ·) (x :: l) → x ≤ (x :: l).getLast (List.cons_ne_nil x l) := by
  intro l
  induction l with
  | nil => intro x _; simp
  | cons z t ih =>
    intro x h
    have hxz : x ≤ z := (List.chain'_cons.mp h).1
    have hih := ih z (List.chain'_cons.mp h).2
    rw [List.getLast_cons (List.cons_ne_nil z t)]
    exact le_trans hxz hih

lemma split_flatten_aux (image : Raster)
    (hw : ∀ row ∈ image, row.length = width image) :
    ∀ (t : List Int) (y0 : Int), 0 ≤ y0 → List.Chain' (· ≤ ·) (y0 :: t) →
      (split image (y0 :: t)).flatten =
        (image.drop y0.toNat).take
          (((y0 :: t).getLast (List.cons_ne_nil y0 t) - y0).toNat) := by
  intro t
  induction t with
  | nil =>
    intro y0 _ _
    simp [split, List.getLast_singleton]
  | cons y1 rest ih =>
    intro y0 h0 hch
    have h01 : y0 ≤ y1 := (List.chain'_cons.mp hch).1
    have hch1 : List.Chain' (· ≤ ·) (y1 :: rest) := (List.chain'_cons.mp hch).2
    have h1 : (0 : Int) ≤ y1 := le_trans h0 h01
    have hy1L : y1 ≤ (y1 :: rest).getLast (List.cons_ne_nil y1 rest) :=
      chain'_head_le_getLast rest y1 hch1
    show (crop image 0 y0 (width image : Int) y1 ::
      split image (y1 :: rest)).flatten = _
    rw [List.flatten_cons, crop_full image hw y0 y1, ih y1 h1 hch1,
      List.getLast_cons (List.cons_ne_nil y1 rest)]
    have hdrop : image.drop y1.toNat =
        (image.drop y0.toNat).drop (y1.toNat - y0.toNat) := by
      rw [List.drop_drop]
      congr 1
      omega
    rw [hdrop,
      show ((y1 - y0).toNat) = y1.toNat - y0.toNat from by omega,
      show (((y1 :: rest).getLast (List.cons_ne_nil y1 rest) - y1).toNat) =
        ((y1 :: rest).getLast (List.cons_ne_nil y1 rest)).toNat - y1.toNat
        from by omega,
      ← List.take_add]
    congr 1
    omega

lemma sorted_le_getLast : ∀ (l : List Int) (hi : Int), l.getLast? = some hi →
    List.Pairwise (· ≤ ·) l → ∀ y ∈ l, y ≤ hi := by
  intro l
  induction l with
  | nil => intro hi h; simp at h
  | cons x t ih =>
    intro hi hlast hp y hy
    cases t with
    | nil =>
      simp at hlast hy
      omega
    | cons z t2 =>
      rw [List.getLast?_cons_cons] at hlast
      rcases List.mem_cons.mp hy with rfl | hyt
      · have hhi : hi ∈ z :: t2 := by
          rw [List.getLast?_eq_getLast (z :: t2) (List.cons_ne_nil z t2),
            Option.some_inj] at hlast
          rw [← hlast]
          exact List.getLast_mem (List.cons_ne_nil z t2)
        exact (List.pairwise_cons.mp hp).1 hi hhi
      · exact ih hi hlast (List.pairwise_cons.mp hp).2 y hyt

lemma sorted_head_le (l : List Int) (lo : Int) (hh : l.head? = some lo)
    (hp : List.Pairwise (· ≤ ·) l) : ∀ y ∈ l, lo ≤ y := by
  cases l with
  | nil => simp at hh
  | cons x t =>
    simp only [List.head?_cons, Option.some_inj] at hh
    intro y hy
    rcases List.mem_cons.mp hy with rfl | hyt
    · exact le_of_eq hh.symm
    · rw [← hh]
      exact (List.pairwise_cons.mp hp).1 y hyt

lemma split_heights (image : Raster) : ∀ (cuts : List Int),
    (∀ y ∈ cuts, 0 ≤ y ∧ y ≤ (image.length : Int)) →
    List.Chain' (· ≤ ·) cuts →
    (split image cuts).map List.length =
      List.zipWith (fun y1 y2 => (y2 - y1).toNat) cuts cuts.tail := by
  intro cuts
  induction cuts with
  | nil => intro _ _; rfl
  | cons y0 t ih =>
    intro hb hch
    cases t with
    | nil => rfl
    | cons y1 rest =>
      have h01 : y0 ≤ y1 := (List.chain'_cons.mp hch).1
      have hb0 := hb y0 (List.mem_cons_self y0 (y1 :: rest))
      have hb1 := hb y1 (List.mem_cons_of_mem y0 (List.mem_cons_self y1 rest))
      show (crop image 0 y0 (width image : Int) y1 ::
        split image (y1 :: rest)).map List.length = _
      rw [List.map_cons,
        ih (fun y hy => hb y (List.mem_cons_of_mem y0 hy))
          (List.chain'_cons.mp hch).2]
      show _ :: _ = (y1 - y0).toNat :: _
      congr 1
      rw [crop, List.length_map, List.length_take, List.length_drop]
      omega

/-- C8 (claim): for every rectangular raster and every schedule satisfying
the cut-schedule invariant (starts at 0, ends at the height, strictly
increasing), the chunks returned by `split` reproduce the raster exactly
when concatenated vertically in order, their heights are exactly the
consecutive schedule differences (so they cover [cuts[i], cuts[i+1]) with
no overlap and no gap), and the heights sum to the raster height. -/
theorem C8_split_roundtrip (image : Raster) (cuts : List Int)
    (hw : ∀ row ∈ image, row.length = width image)
    (h0 : cuts.head? = some 0)
    (hH : cuts.getLast? = some (image.length : Int))
    (hchain : List.Chain' (· < ·) cuts) :
    (split image cuts).flatten = image ∧
    ((split image cuts).map List.length).sum = image.length ∧
    (split image cuts).map List.length =
      List.zipWith (fun y1 y2 => (y2 - y1).toNat) cuts cuts.tail := by
  have hchle : List.Chain' (· ≤ ·) cuts := hchain.imp (fun a b h => le_of_lt h)
  have hpair : List.Pairwise (· ≤ ·) cuts := List.chain'_iff_pairwise.mp hchle
  have hbounds : ∀ y ∈ cuts, 0 ≤ y ∧ y ≤ (image.length : Int) := fun y hy =>
    ⟨sorted_head_le cuts 0 h0 hpair y hy, sorted_le_getLast cuts _ hH hpair y hy⟩
  have hjoin : (split image cuts).flatten = image := by
    cases cuts with
    | nil => simp at h0
    | cons y0 t =>
      simp only [List.head?_cons, Option.some_inj] at h0
      subst h0
      rw [split_flatten_aux image hw t 0 (le_refl 0) hchle]
      rw [show ((0 :: t : List Int).getLast (List.cons_ne_nil 0 t)) =
        (image.length : Int) from by
          rw [List.getLast?_eq_getLast (0 :: t) (List.cons_ne_nil 0 t),
            Option.some_inj] at hH
          exact hH]
      simp
  refine ⟨hjoin, ?_, split_heights image cuts hbounds hchle⟩
  rw [← List.length_flatten, hjoin]

/-- Witness for C8 at the two-row raster [[p1], [p2]] and the schedule
[0, 1, 2]. -/
theorem C8_split_roundtrip_witness :
    (split [[(1, 1, 1)], [(2, 2, 2)]] [0, 1, 2]).flatten =
        [[(1, 1, 1)], [(2, 2, 2)]] ∧
    ((split [[(1, 1, 1)], [(2, 2, 2)]] [0, 1, 2]).map List.length).sum =
        ([[(1, 1, 1)], [(2, 2, 2)]] : Raster).length ∧
    (split [[(1, 1, 1)], [(2, 2, 2)]] [0, 1, 2]).map List.length =
      List.zipWith (fun y1 y2 => (y2 - y1).toNat) ([0, 1, 2] : List Int)
        ([0, 1, 2] : List Int).tail :=
  C8_split_roundtrip [[(1, 1, 1)], [(2, 2, 2)]] [0, 1, 2] (by decide)
    (by decide) (by decide) (by norm_num [List.chain'_cons])

/-! ### Lemmas about merge -/

lemma le_foldr_max : ∀ (l : List Nat) (x : Nat), x ∈ l → x ≤ l.foldr max 0 := by
  intro l
  induction l with
  | nil => intro x h; simp at h
  | cons a t ih =>
    intro x hx
    rcases List.mem_cons.mp hx with rfl | hxt
    · exact le_max_left _ _
    · exact le_trans (ih x hxt) (le_max_right _ _)

lemma zipWith_paste_replicate (w : Nat) : ∀ (src : Raster) (n : Nat),
    src.length ≤ n → (∀ row ∈ src, row.length ≤ w) →
    List.zipWith (fun s d => s ++ d.drop s.length) src
        (List.replicate n (List.replicate w ((0, 0, 0) : Pixel))) =
      src.map (padRow w) := by
  intro src
  induction src with
  | nil => intro n _ _; simp
  | cons r t ih =>
    intro n hn hrow
    cases n with
    | zero => simp at hn
    | succ m =>
      rw [List.replicate_succ, List.zipWith_cons_cons, List.map_cons,
        List.drop_replicate]
      rw [ih m (by simpa using hn)
        (fun row hr => hrow row (List.mem_cons_of_mem r hr))]
      rfl

lemma paste_step (done : Raster) (src : Raster) (hb : Nat) (w : Nat)
    (hsrc : src.length ≤ hb) (hrow : ∀ row ∈ src, row.length ≤ w) :
    paste (done ++ blankRaster w hb) src done.length =
      done ++ src.map (padRow w) ++ blankRaster w (hb - src.length) := by
  rw [paste, List.take_left, List.drop_left, ← List.drop_drop, List.drop_left]
  simp only [blankRaster, List.drop_replicate]
  rw [zipWith_paste_replicate w src hb hsrc hrow]

lemma merge_fold (w : Nat) : ∀ (imgs : List Raster) (done : Raster),
    (∀ img ∈ imgs, ∀ row ∈ img, row.length ≤ w) →
    imgs.foldl (fun acc image => (paste acc.1 image acc.2, acc.2 + image.length))
      (done ++ blankRaster w ((imgs.map List.length).sum), done.length) =
    (done ++ (imgs.map (fun img => img.map (padRow w))).flatten,
      done.length + (imgs.map List.length).sum) := by
  intro imgs
  induction imgs with
  | nil => intro done _; simp [blankRaster]
  | cons img rest ih =>
    intro done hall
    rw [List.foldl_cons,
      show ((img :: rest).map List.length).sum =
        img.length + (rest.map List.length).sum from by simp]
    rw [paste_step done img (img.length + (rest.map List.length).sum) w
      (by omega) (hall img (List.mem_cons_self img rest)),
      show img.length + (rest.map List.length).sum - img.length =
        (rest.map List.length).sum from by omega]
    have hlen : (done ++ img.map (padRow w)).length = done.length + img.length := by
      simp
    rw [← hlen,
      ih (done ++ img.map (padRow w))
        (fun i hi => hall i (List.mem_cons_of_mem img hi))]
    rw [hlen]
    simp [List.append_assoc, Nat.add_assoc]

/-- C9 (claim): `merge` of a nonempty list of rectangular, positive-height
rasters succeeds and produces the vertical concatenation, in input order,
of the inputs padded on the right with black to the maximum input width —
i.e. each input sits at horizontal offset 0 and at the cumulative vertical
offset of all previous inputs — with height the sum of the input heights
and width the maximum of the input widths. -/
theorem C9_merge_geometry (images : List Raster) (hne : images ≠ [])
    (hrect : ∀ img ∈ images, ∀ row ∈ img, row.length = width img)
    (hpos : ∀ img ∈ images, img ≠ []) :
    ∃ result, merge images = some result ∧
      result = (images.map (fun img =>
        img.map (padRow ((images.map width).foldr max 0)))).flatten ∧
      result.length = (images.map List.length).sum ∧
      width result = (images.map width).foldr max 0 := by
  cases images with
  | nil => exact absurd rfl hne
  | cons img rest =>
    have hall : ∀ i ∈ img :: rest, ∀ row ∈ i,
        row.length ≤ ((img :: rest).map width).foldr max 0 := by
      intro i hi row hrow
      rw [hrect i hi row hrow]
      exact le_foldr_max _ _ (List.mem_map_of_mem width hi)
    have hmerge : merge (img :: rest) =
        some (((img :: rest).foldl
          (fun acc image => (paste acc.1 image acc.2, acc.2 + image.length))
          (blankRaster (((img :: rest).map width).foldr max 0)
            (((img :: rest).map List.length).sum), 0)).1) := rfl
    have hfold := merge_fold (((img :: rest).map width).foldr max 0)
      (img :: rest) [] hall
    simp only [List.nil_append, List.length_nil, Nat.zero_add] at hfold
    rw [hmerge, hfold]
    refine ⟨_, rfl, rfl, ?_, ?_⟩
    · rw [List.length_flatten, List.map_map]
      congr 1
      apply List.map_congr_left
      intro i hi
      simp
    · cases himg : img with
      | nil => exact absurd himg (hpos img (List.mem_cons_self img rest))
      | cons r rows =>
        have hrw : r.length ≤ ((img :: rest).map width).foldr max 0 := by
          apply hall img (List.mem_cons_self img rest) r
          rw [himg]
          exact List.mem_cons_self r rows
        simp only [List.map_cons, List.flatten_cons, List.cons_append, width,
          List.headD_cons]
        simp [padRow]

/-- Witness for C9 at two concrete rasters of heights 1 and 1 and widths
1 and 2. -/
theorem C9_merge_geometry_witness :
    ∃ result, merge [[[(1, 2, 3)]], [[(4, 5, 6), (7, 8, 9)]]] = some result ∧
      result = (([[[(1, 2, 3)]], [[(4, 5, 6), (7, 8, 9)]]] :
          List Raster).map (fun img => img.map (padRow
            ((([[[(1, 2, 3)]], [[(4, 5, 6), (7, 8, 9)]]] :
              List Raster).map width).foldr max 0)))).flatten ∧
      result.length = (([[[(1, 2, 3)]], [[(4, 5, 6), (7, 8, 9)]]] :
          List Raster).map List.length).sum ∧
      width result = (([[[(1, 2, 3)]], [[(4, 5, 6), (7, 8, 9)]]] :
          List Raster).map width).foldr max 0 :=
  C9_merge_geometry [[[(1, 2, 3)]], [[(4, 5, 6), (7, 8, 9)]]]
    (by decide) (by decide) (by decide)

end WebtoonProcessing
